import Mathlib

/-!
Shallow embedding of the reactor-with-worker-pool repository
(`src/ConnectionHandler.cpp`, `src/Reactor.cpp`, `include/Reactor.hpp`,
`src/WorkerPool.cpp`, `src/TaskQueue.cpp`) together with proofs checking the
natural-language specification against the code.

Byte strings are modelled as `List Char`.  File descriptors are `Nat`.
Closures whose only effect is a syscall are modelled by explicit action
records; logging (`std::cout`, `perror`) is ignored.
-/

/-- One result of a `recv` call inside `ConnectionHandler::handleRead`:
`data chunk` models `n > 0` with the received bytes, `closed` models `n == 0`,
`again` models `n < 0` with `EAGAIN`/`EWOULDBLOCK`, and `err` models any other
`n < 0`. -/
inductive RecvResult where
  | data (chunk : List Char)
  | closed
  | again
  | err
deriving DecidableEq, Repr

/-- An externally visible action performed by `ConnectionHandler::handleRead`:
`scheduleTask m` models the call `scheduleTask(message)` with the current
accumulated buffer `m`; `closeFd` models `close(fd_)`; `removeHandler`
models `reactor_->removeHandler(fd_)`. -/
inductive ConnAction where
  | scheduleTask (message : List Char)
  | closeFd
  | removeHandler
deriving DecidableEq, Repr

namespace ConnectionHandler

/-- The body of the `while (true)` loop of `ConnectionHandler::handleRead`,
transliterated from `src/ConnectionHandler.cpp`.  `message` is the local
`std::string message("")` accumulated so far in this invocation; the list of
`RecvResult`s is the sequence of values the successive `recv` calls return.
In the newline branch the code first appends the whole chunk and only then
calls `scheduleTask(message)`, so the scheduled snapshot contains the entire
chunk. -/
def handleReadLoop (message : List Char) : List RecvResult → List ConnAction
  | [] => []
  | RecvResult.data chunk :: rest =>
      if '\n' ∈ chunk then
        ConnAction.scheduleTask (message ++ chunk) :: handleReadLoop (message ++ chunk) rest
      else
        handleReadLoop (message ++ chunk) rest
  | RecvResult.closed :: _ => [ConnAction.closeFd]
  | RecvResult.again :: _ => []
  | RecvResult.err :: _ => [ConnAction.removeHandler]

/-- Embeds `ConnectionHandler::handleRead`: the accumulated buffer is a local
variable initialised to the empty string at the start of every invocation. -/
def handleRead (recvs : List RecvResult) : List ConnAction :=
  handleReadLoop [] recvs

/-- A `send(fd, response.c_str(), response.length(), 0)` call performed by a
continuation. -/
structure SendCall where
  fd : Nat
  bytes : List Char
deriving DecidableEq, Repr

/-- The two closures `ConnectionHandler::scheduleTask` hands to
`Reactor::submitTask`: a compute stage and a continuation. -/
structure SubmittedTask where
  taskFn : Unit → List Char
  continuation : List Char → SendCall

/-- The literal prefix `"Async "` prepended by the compute stage. -/
def asyncPrefix : List Char := 'A' :: 's' :: 'y' :: 'n' :: 'c' :: ' ' :: []

/-- Embeds `ConnectionHandler::scheduleTask`: builds the task whose compute stage
returns `"Async " + message` and whose continuation sends that response on
the captured fd. -/
def scheduleTask (fd : Nat) (message : List Char) : SubmittedTask :=
  { taskFn := fun _ => asyncPrefix ++ message
  , continuation := fun response => { fd := fd, bytes := response } }

/-- The messages handed to `scheduleTask` by a run of the read loop, in order. -/
def scheduledMessages (acts : List ConnAction) : List (List Char) :=
  acts.filterMap (fun a =>
    match a with
    | ConnAction.scheduleTask m => some m
    | _ => none)

/-- The echoed payloads of a whole connection: each readiness event triggers a
fresh `handleRead` invocation (each with its own empty local buffer). -/
def requestsEcho (events : List (List RecvResult)) : List (List Char) :=
  events.flatMap (fun rs => scheduledMessages (handleRead rs))

end ConnectionHandler

/-- A handler object, identified by its fd (`getHandle()`) and an object tag
distinguishing distinct `EventHandler` instances. -/
structure HandlerObj where
  fd : Nat
  tag : Nat
deriving DecidableEq, Repr

/-- State of a `Reactor` as far as registration is concerned:
`handlers` models the `std::unordered_map<int, EventHandlerPtr> handlers_`
as an association list from fd to handler tag, `epollSet` models the kernel
epoll interest set of `epollFd_`, `closedFds` records `close` calls, and
`exited` records that `exit(1)` ran (after a failed `epoll_ctl`). -/
structure ReactorState where
  eventFd : Nat
  handlers : List (Nat × Nat)
  epollSet : List Nat
  closedFds : List Nat
  exited : Bool
deriving DecidableEq, Repr

namespace ReactorState

/-- Embeds `handlers_[fd] = handler`: `std::unordered_map` subscript assignment
inserts or overwrites the entry for `fd`. -/
def mapInsert (fd tag : Nat) (m : List (Nat × Nat)) : List (Nat × Nat) :=
  (fd, tag) :: m.filter (fun p => p.1 ≠ fd)

/-- Embeds `handlers_.erase(fd)`. -/
def mapErase (fd : Nat) (m : List (Nat × Nat)) : List (Nat × Nat) :=
  m.filter (fun p => p.1 ≠ fd)

/-- Lookup in the handler map. -/
def mapFind (fd : Nat) (m : List (Nat × Nat)) : Option Nat :=
  (m.find? (fun p => p.1 = fd)).map (fun p => p.2)

/-- The set of registered fds (keys of `handlers_`). -/
def keys (m : List (Nat × Nat)) : List Nat := m.map (fun p => p.1)

/-- Embeds `Reactor::registerEpollEvent`: `epoll_ctl(epollFd_, EPOLL_CTL_ADD, fd, ..)`
with `EPOLLIN | EPOLLET`.  Adding an fd already in the interest set fails with
`EEXIST`, upon which the code calls `perror` and `exit(1)`. -/
def registerEpollEvent (fd : Nat) (s : ReactorState) : ReactorState :=
  if fd ∈ s.epollSet then { s with exited := true }
  else { s with epollSet := fd :: s.epollSet }

/-- Embeds `Reactor::registerHandler`: unconditionally stores the handler in
`handlers_` (overwriting any existing entry for the same fd), then subscribes
the fd via `registerEpollEvent`.  There is no duplicate check and no error
value returned to the caller. -/
def registerHandler (h : HandlerObj) (s : ReactorState) : ReactorState :=
  registerEpollEvent h.fd { s with handlers := mapInsert h.fd h.tag s.handlers }

/-- Embeds `Reactor::removeHandler`: erases the fd from `handlers_`, unsubscribes it
(`EPOLL_CTL_DEL`, whose failure with `ENOENT` makes the code `exit(1)` before
reaching `close`), and closes the fd. -/
def removeHandler (fd : Nat) (s : ReactorState) : ReactorState :=
  let s₁ := { s with handlers := mapErase fd s.handlers }
  if fd ∈ s₁.epollSet then
    { s₁ with epollSet := s₁.epollSet.filter (fun x => x ≠ fd)
            , closedFds := fd :: s₁.closedFds }
  else { s₁ with exited := true }

/-- Embeds the constructor `Reactor::Reactor`: creates the epoll fd and the eventfd and subscribes
the eventfd via `registerEpollEvent` — without ever inserting a handler for
it into `handlers_`. -/
def mkReactor (eventFd : Nat) : ReactorState :=
  registerEpollEvent eventFd
    { eventFd := eventFd, handlers := [], epollSet := [], closedFds := [], exited := false }

/-- States reachable through the reactor registration operations:
construction, `registerHandler`, `removeHandler`. -/
inductive Reached : ReactorState → Prop where
  | init (eventFd : Nat) : Reached (mkReactor eventFd)
  | register (h : HandlerObj) (s : ReactorState) : Reached s → Reached (registerHandler h s)
  | remove (fd : Nat) (s : ReactorState) : Reached s → Reached (removeHandler fd s)

/-- Interpretation of the connection-handler actions against the reactor
state, for the connection owning fd `fd`: `closeFd` is a bare `close(fd_)`
syscall (it does not touch `handlers_`), `removeHandler` goes through
`Reactor::removeHandler`, and `scheduleTask` does not touch the registry. -/
def applyConnActs (fd : Nat) (acts : List ConnAction) (s : ReactorState) : ReactorState :=
  acts.foldl
    (fun st a =>
      match a with
      | ConnAction.scheduleTask _ => st
      | ConnAction.closeFd => { st with closedFds := fd :: st.closedFds }
      | ConnAction.removeHandler => removeHandler fd st)
    s

end ReactorState

/-- A completion-inbox entry: the parameterless closure
`[result, continuation]() { continuation(result); }` pushed onto `completed_`,
identified by the id of its task and the computed result it binds. -/
structure InboxEntry where
  taskId : Nat
  result : List Char
deriving DecidableEq, Repr

/-- One action on shared state performed by the combined worker-side closure
`task.fn` built in `Reactor::submitTask` (`include/Reactor.hpp`):
`runTaskFn r` is `auto result = taskFn()` returning `r`, `pushInbox` is
`completed_.push(...)`, `writeEventFd` is `write(eventFd_, &one, sizeof(one))`,
and `lockInbox`/`unlockInbox` stand for acquiring/releasing `completedMtx_`
(available to the closure, but never used by it). -/
inductive WorkAct where
  | runTaskFn (result : List Char)
  | lockInbox
  | unlockInbox
  | pushInbox (e : InboxEntry)
  | writeEventFd
deriving DecidableEq, Repr

/-- One action performed by `Reactor::processCompletedTasks`:
`lockInbox`/`unlockInbox` delimit the `std::lock_guard` scope, `swapInbox` is
`std::swap(q, completed_)`, and `runCont e` is running the drained closure
`e`. -/
inductive DrainAct where
  | lockInbox
  | swapInbox
  | unlockInbox
  | runCont (e : InboxEntry)
deriving DecidableEq, Repr

namespace Reactor

/-- The combined closure `task.fn` built by `Reactor::submitTask`: it runs
the compute closure, pushes the continuation-binding closure onto
`completed_` without any acquisition of `completedMtx_` (the source has no
lock in this lambda), and signals the eventfd. -/
def submitTaskClosureActs (taskFn : Unit → List Char) (taskId : Nat) : List WorkAct :=
  [WorkAct.runTaskFn (taskFn ()),
   WorkAct.pushInbox { taskId := taskId, result := taskFn () },
   WorkAct.writeEventFd]

/-- Embeds `Reactor::processCompletedTasks`: under `completedMtx_`, swap `completed_`
with an empty local queue; the lock guard scope ends; then run each drained
closure in FIFO order.  Returns the new value of `completed_` together with
the performed actions. -/
def processCompletedTasks (completed : List InboxEntry) :
    List InboxEntry × List DrainAct :=
  ([], [DrainAct.lockInbox, DrainAct.swapInbox, DrainAct.unlockInbox]
        ++ completed.map DrainAct.runCont)

/-- The inbox mutex is held while executing position `i` of a drain trace
when the locks strictly before `i` outnumber the unlocks strictly before
`i`. -/
def mutexHeldAt (acts : List DrainAct) (i : Nat) : Prop :=
  (acts.take i).count DrainAct.lockInbox > (acts.take i).count DrainAct.unlockInbox

/-- The continuations run by a drain trace, in order. -/
def contsRun (acts : List DrainAct) : List InboxEntry :=
  acts.filterMap (fun a =>
    match a with
    | DrainAct.runCont e => some e
    | _ => none)

end Reactor

/-- A timer record (`include/Timer.hpp`); the callback closure is replaced by
the timer id, callback invocations appearing as `fire` events in the trace. -/
structure Timer where
  id : Nat
  expiresAt : Nat
  interval : Nat
deriving DecidableEq, Repr

/-- The timer wheel `std::map<uint64_t, std::vector<Timer>>`: an association
list kept sorted by strictly ascending key. -/
abbrev TimerMap : Type := List (Nat × List Timer)

/-- One event of a `processTimers` run: `detach k b` is
`timers_.erase(it)` removing the whole due bucket `b` at key `k` (after the
copy `auto dueTimers = it->second`), `fire k t` is `t.callback()` for a timer
of the bucket at key `k`, and `reinsert t` is
`timers_[t.expiresAt].push_back(t)` for the already re-armed copy `t`. -/
inductive TimerEv where
  | detach (key : Nat) (bucket : List Timer)
  | fire (key : Nat) (t : Timer)
  | reinsert (t : Timer)
deriving DecidableEq, Repr

namespace Reactor

/-- Embeds `timers_[k].push_back(t)`: appends `t` to the bucket at key `k`, creating
the bucket at its sorted position when absent. -/
def timerInsert (k : Nat) (t : Timer) : TimerMap → TimerMap
  | [] => [(k, [t])]
  | (k₀, b₀) :: rest =>
      if k < k₀ then (k, [t]) :: (k₀, b₀) :: rest
      else if k = k₀ then (k₀, b₀ ++ [t]) :: rest
      else (k₀, b₀) :: timerInsert k t rest

/-- Embeds `Reactor::addTimer`: builds the timer with the next id,
`expiresAt = now + ms` and `interval = recurring ? ms : 0`, inserts it, and
returns its id together with the updated id counter and wheel. -/
def addTimer (now ms : Nat) (recurring : Bool) (nextTimerId : Nat) (timers : TimerMap) :
    Nat × Nat × TimerMap :=
  let t : Timer := { id := nextTimerId, expiresAt := now + ms
                   , interval := if recurring then ms else 0 }
  (t.id, nextTimerId + 1, timerInsert t.expiresAt t timers)

/-- The recurring timers of a due bucket, re-armed by
`t.expiresAt = now + t.interval`, in bucket order. -/
def reinsertions (now : Nat) (bucket : List Timer) : List Timer :=
  (bucket.filter (fun t => 0 < t.interval)).map
    (fun t => { t with expiresAt := now + t.interval })

/-- The events of processing one due bucket: the bucket is erased from the
wheel first, then for each of its timers in order the callback runs and,
when `interval > 0`, the re-armed copy is inserted back. -/
def bucketEvents (now k : Nat) (bucket : List Timer) : List TimerEv :=
  TimerEv.detach k bucket ::
    bucket.flatMap (fun t =>
      TimerEv.fire k t ::
        (if 0 < t.interval then [TimerEv.reinsert { t with expiresAt := now + t.interval }]
         else []))

/-- Number of buckets whose deadline is not in the future (the loop's
termination measure: each iteration erases one such bucket and re-inserts
only at keys strictly beyond `now`). -/
def countDue (now : Nat) (m : TimerMap) : Nat :=
  (m.filter (fun p => p.1 ≤ now)).length

/-- The `while` loop of `Reactor::processTimers` with `now` already captured:
inspect the smallest-key bucket, stop if its deadline is in the future,
otherwise detach it, run its callbacks, re-arm its recurring timers into the
wheel, and continue.  Returns the final wheel and the event trace. -/
def processTimersGo (now : Nat) (m : TimerMap) : TimerMap × List TimerEv :=
  match m with
  | [] => ([], [])
  | (k, bucket) :: rest =>
      if h : now < k then ((k, bucket) :: rest, [])
      else
        let r := processTimersGo now
          ((reinsertions now bucket).foldl (fun acc t => timerInsert t.expiresAt t acc) rest)
        (r.1, bucketEvents now k bucket ++ r.2)
termination_by countDue now m
decreasing_by
  have hins : ∀ (k₁ : Nat) (t₁ : Timer) (m₁ : TimerMap), now < k₁ →
      countDue now (timerInsert k₁ t₁ m₁) = countDue now m₁ := by
    intro k₁ t₁ m₁ hk
    induction m₁ with
    | nil => simp [timerInsert, countDue, Nat.not_le.2 hk]
    | cons p rest₁ ih =>
        rcases p with ⟨k₂, b₂⟩
        by_cases h₁ : k₁ < k₂
        · simp [timerInsert, h₁, countDue, Nat.not_le.2 hk]
        · by_cases h₂ : k₁ = k₂
          · subst h₂
            simp [timerInsert, h₁, countDue, List.filter_cons, Nat.not_le.2 hk]
          · simp only [timerInsert, if_neg h₁, if_neg h₂]
            simp only [countDue, List.filter_cons] at ih ⊢
            by_cases h₃ : k₂ ≤ now
            · simp [h₃, ih]
            · simp [h₃, ih]
  have hfold : ∀ (l : List Timer) (m₁ : TimerMap), (∀ t ∈ l, now < t.expiresAt) →
      countDue now (l.foldl (fun acc t => timerInsert t.expiresAt t acc) m₁)
        = countDue now m₁ := by
    intro l
    induction l with
    | nil => intro m₁ _; rfl
    | cons t ts ih =>
        intro m₁ hl
        simp only [List.foldl_cons]
        rw [ih _ (fun u hu => hl u (List.mem_cons_of_mem t hu)),
          hins t.expiresAt t m₁ (hl t (List.mem_cons_self t ts))]
  have hmem : ∀ (b : List Timer), ∀ t ∈ reinsertions now b, now < t.expiresAt := by
    intro b t ht
    simp only [reinsertions, List.mem_map] at ht
    rcases ht with ⟨t₀, ht₀, rfl⟩
    have : 0 < t₀.interval := by
      rcases List.mem_filter.1 ht₀ with ⟨_, hp⟩
      simpa using hp
    show now < now + t₀.interval
    omega
  rw [hfold _ rest (hmem _)]
  simp [countDue, List.filter_cons, Nat.not_lt.1 h]

/-- Embeds `Reactor::processTimers`: captures `now` once (`nowMs()` is called a
single time at the top) and runs the loop. -/
def processTimers (now : Nat) (m : TimerMap) : TimerMap × List TimerEv :=
  processTimersGo now m

/-- Every `fire` in the trace is preceded by the `detach` of its bucket:
buckets are taken off the wheel in their entirety before callbacks run. -/
def detachPrecedesFires (l : List TimerEv) : Prop :=
  ∀ (i : Nat) (k : Nat) (t : Timer), l[i]? = some (TimerEv.fire k t) →
    ∃ (j : Nat) (b : List Timer), j < i ∧ l[j]? = some (TimerEv.detach k b)

/-- Every `reinsert` in the trace is preceded by the `fire` of the same timer,
the source timer is recurring, and the re-armed copy expires at
`now + interval`. -/
def firePrecedesReinsert (now : Nat) (l : List TimerEv) : Prop :=
  ∀ (i : Nat) (t : Timer), l[i]? = some (TimerEv.reinsert t) →
    ∃ (j : Nat) (k : Nat) (t₀ : Timer), j < i ∧ l[j]? = some (TimerEv.fire k t₀)
      ∧ 0 < t₀.interval ∧ t = { t₀ with expiresAt := now + t₀.interval }

/-- The timers carried by the `reinsert` events of a trace, in order. -/
def reinsertPayloads (l : List TimerEv) : List Timer :=
  l.filterMap (fun e =>
    match e with
    | TimerEv.reinsert t => some t
    | _ => none)

end Reactor

/-- A task submitted through `Reactor::submitTask`: `compute` is the `taskFn`
closure run on a worker; the wrapped continuation is identified by the same
`id`, since the combined closure binds the compute result to exactly its own
task's continuation. -/
structure WTask where
  id : Nat
  compute : Unit → List Char

/-- The thread on which a protocol event happens. -/
inductive Thread where
  | worker
  | reactor
deriving DecidableEq, Repr

/-- Observable events of the submit/complete protocol: `computeRet thr id r`
records `auto result = taskFn()` returning `r` inside the combined closure of
task `id` on thread `thr`; `contCall thr id arg` records the invocation
`continuation(arg)` by the drained closure of task `id` on thread `thr`. -/
inductive TaskEv where
  | computeRet (thr : Thread) (id : Nat) (result : List Char)
  | contCall (thr : Thread) (id : Nat) (arg : List Char)
deriving DecidableEq, Repr

/-- Global state of the worker-pool/completion protocol: `pending` is the
`TaskQueue` FIFO, `running` holds tasks popped by workers whose combined
closures are executing, `inbox` is `completed_` (task id and bound result of
each pushed closure), `signal` the eventfd counter, `trace` the events so
far. -/
structure Sys where
  pending : List WTask
  running : List WTask
  inbox : List (Nat × List Char)
  signal : Nat
  trace : List TaskEv

namespace Sys

/-- Initial state: the submitted tasks sit in the `TaskQueue`. -/
def init (tasks : List WTask) : Sys :=
  { pending := tasks, running := [], inbox := [], signal := 0, trace := [] }

/-- One interleaving step.  `pop` is `TaskQueue::pop` by some worker (FIFO
head moves to that worker).  `finish` is any worker completing the combined
closure of its running task: the compute closure returns, the
continuation-binding closure is appended to `completed_`, and the eventfd is
bumped (`write(eventFd_, &one, ...)`).  `drain` is the reactor woken by
eventfd readiness: it reads (and thereby clears) the counter and runs
`processCompletedTasks`, which empties the inbox and invokes each drained
closure in FIFO order on the reactor thread. -/
inductive Step : Sys → Sys → Prop where
  | pop (s : Sys) (t : WTask) (rest : List WTask) :
      s.pending = t :: rest →
      Step s { s with pending := rest, running := s.running ++ [t] }
  | finish (s : Sys) (l₁ l₂ : List WTask) (t : WTask) :
      s.running = l₁ ++ t :: l₂ →
      Step s { s with
        running := l₁ ++ l₂
        , inbox := s.inbox ++ [(t.id, t.compute ())]
        , signal := s.signal + 1
        , trace := s.trace ++ [TaskEv.computeRet Thread.worker t.id (t.compute ())] }
  | drain (s : Sys) :
      0 < s.signal →
      Step s { s with
        inbox := []
        , signal := 0
        , trace := s.trace
            ++ s.inbox.map (fun p => TaskEv.contCall Thread.reactor p.1 p.2) }

/-- Reachability by interleaving steps. -/
def Reach (s₀ s : Sys) : Prop := Relation.ReflTransGen Step s₀ s

/-- Occurrences of `id` among a task list. -/
def idCount (id : Nat) (l : List WTask) : Nat :=
  (l.filter (fun t => t.id = id)).length

/-- Occurrences of `id` among inbox entries. -/
def inboxCount (id : Nat) (l : List (Nat × List Char)) : Nat :=
  (l.filter (fun p => p.1 = id)).length

/-- Continuation calls for task `id` in a trace. -/
def contCount (id : Nat) (tr : List TaskEv) : Nat :=
  (tr.filter (fun e =>
    match e with
    | TaskEv.contCall _ i _ => i = id
    | _ => false)).length

/-- Protocol invariant tying a reachable state to the initially submitted
tasks: conservation of each id across queue, workers, inbox and trace;
origin of every queue/inbox/trace element in `tasks`; thread attribution of
each event kind; and every continuation call being preceded in the trace by
the compute return of the same task with the same value. -/
def Inv (tasks : List WTask) (s : Sys) : Prop :=
  (∀ id, idCount id s.pending + idCount id s.running + inboxCount id s.inbox
      + contCount id s.trace = idCount id tasks)
  ∧ (∀ t ∈ s.pending, t ∈ tasks)
  ∧ (∀ t ∈ s.running, t ∈ tasks)
  ∧ (∀ p ∈ s.inbox, ∃ t ∈ tasks, t.id = p.1 ∧ p.2 = t.compute ()
      ∧ TaskEv.computeRet Thread.worker p.1 p.2 ∈ s.trace)
  ∧ (∀ thr id arg, TaskEv.contCall thr id arg ∈ s.trace →
      thr = Thread.reactor ∧ ∃ t ∈ tasks, t.id = id ∧ arg = t.compute ())
  ∧ (∀ thr id r, TaskEv.computeRet thr id r ∈ s.trace →
      thr = Thread.worker ∧ ∃ t ∈ tasks, t.id = id ∧ r = t.compute ())
  ∧ (∀ (i : Nat) (id : Nat) (arg : List Char),
      s.trace[i]? = some (TaskEv.contCall Thread.reactor id arg) →
      ∃ j, j < i ∧ s.trace[j]? = some (TaskEv.computeRet Thread.worker id arg))

end Sys

namespace ConnectionHandler

theorem scheduledMessages_nil : scheduledMessages [] = [] := rfl

theorem scheduledMessages_cons_schedule (m : List Char) (rest : List ConnAction) :
    scheduledMessages (ConnAction.scheduleTask m :: rest) = m :: scheduledMessages rest := rfl

/-- Every message scheduled by `handleReadLoop message rs` extends the buffer
`message` it started from: the local accumulator only ever grows. -/
theorem handleReadLoop_scheduled_extends (rs : List RecvResult) :
    ∀ (message x : List Char),
      x ∈ scheduledMessages (handleReadLoop message rs) → message <+: x := by
  induction rs with
  | nil =>
      intro message x hx
      simp [handleReadLoop, scheduledMessages] at hx
  | cons r rest ih =>
      intro message x hx
      cases r with
      | data chunk =>
          by_cases hnl : '\n' ∈ chunk
          · simp only [handleReadLoop, if_pos hnl, scheduledMessages_cons_schedule,
              List.mem_cons] at hx
            rcases hx with hx | hx
            · exact hx ▸ ⟨chunk, rfl⟩
            · exact (List.prefix_append message chunk).trans (ih (message ++ chunk) x hx)
          · simp only [handleReadLoop, if_neg hnl] at hx
            exact (List.prefix_append message chunk).trans (ih (message ++ chunk) x hx)
      | closed => simp [handleReadLoop, scheduledMessages] at hx
      | again => simp [handleReadLoop, scheduledMessages] at hx
      | err => simp [handleReadLoop, scheduledMessages] at hx

/-- Within one `handleRead` invocation the scheduled messages form a prefix
chain: the buffer is never cleared between dispatches. -/
theorem handleReadLoop_scheduled_pairwise (rs : List RecvResult) :
    ∀ message : List Char,
      (scheduledMessages (handleReadLoop message rs)).Pairwise (· <+: ·) := by
  induction rs with
  | nil => intro message; simp [handleReadLoop, scheduledMessages]
  | cons r rest ih =>
      intro message
      cases r with
      | data chunk =>
          by_cases hnl : '\n' ∈ chunk
          · simp only [handleReadLoop, if_pos hnl, scheduledMessages_cons_schedule]
            exact List.Pairwise.cons
              (fun x hx => handleReadLoop_scheduled_extends rest (message ++ chunk) x hx)
              (ih (message ++ chunk))
          · simp only [handleReadLoop, if_neg hnl]
            exact ih (message ++ chunk)
      | closed => simp [handleReadLoop, scheduledMessages]
      | again => simp [handleReadLoop, scheduledMessages]
      | err => simp [handleReadLoop, scheduledMessages]

end ConnectionHandler

namespace ReactorState

theorem mem_keys_of_mem_filter (fd g : Nat) (m : List (Nat × Nat)) (hne : fd ≠ g)
    (hm : fd ∈ keys m) : fd ∈ keys (m.filter (fun p => p.1 ≠ g)) := by
  simp only [keys, List.mem_map] at hm ⊢
  rcases hm with ⟨p, hp, rfl⟩
  exact ⟨p, List.mem_filter.2 ⟨hp, by simp [hne]⟩, rfl⟩

theorem mem_keys_of_mem_keys_filter (fd g : Nat) (m : List (Nat × Nat))
    (hm : fd ∈ keys (m.filter (fun p => p.1 ≠ g))) : fd ∈ keys m ∧ fd ≠ g := by
  simp only [keys, List.mem_map] at hm
  rcases hm with ⟨p, hp, rfl⟩
  rcases List.mem_filter.1 hp with ⟨hpm, hpg⟩
  refine ⟨List.mem_map.2 ⟨p, hpm, rfl⟩, ?_⟩
  simpa using hpg

/-- Registration invariant of all states reachable through construction,
`registerHandler` and `removeHandler`, as long as the process has not exited:
every registered fd is in the epoll interest set, and every fd in the epoll
interest set is either registered or is the wake-up eventfd. -/
theorem reached_invariant (s : ReactorState) (hr : Reached s) (hex : s.exited = false) :
    (∀ fd, fd ∈ keys s.handlers → fd ∈ s.epollSet)
    ∧ (∀ fd, fd ∈ s.epollSet → fd ∈ keys s.handlers ∨ fd = s.eventFd) := by
  induction hr with
  | init eventFd =>
      constructor
      · intro fd hfd
        simp [mkReactor, registerEpollEvent, keys] at hfd
      · intro fd hfd
        simp only [mkReactor, registerEpollEvent] at hfd ⊢
        simp only [List.not_mem_nil, if_false] at hfd
        simp only [List.mem_singleton] at hfd
        exact Or.inr hfd
  | register h s hr ih =>
      by_cases hmem : h.fd ∈ s.epollSet
      · exfalso
        simp [registerHandler, registerEpollEvent, hmem] at hex
      · have hex₀ : s.exited = false := by
          simpa [registerHandler, registerEpollEvent, hmem] using hex
        rcases ih hex₀ with ⟨ih₁, ih₂⟩
        constructor
        · intro fd hfd
          simp only [registerHandler, registerEpollEvent, if_neg hmem] at hfd ⊢
          simp only [mapInsert, keys, List.map_cons, List.mem_cons] at hfd
          rcases hfd with rfl | hfd
          · exact List.mem_cons_self _ _
          · exact List.mem_cons_of_mem _
              (ih₁ fd (mem_keys_of_mem_keys_filter fd h.fd s.handlers hfd).1)
        · intro fd hfd
          simp only [registerHandler, registerEpollEvent, if_neg hmem, List.mem_cons] at hfd ⊢
          rcases hfd with rfl | hfd
          · exact Or.inl (by simp [mapInsert, keys])
          · rcases ih₂ fd hfd with hl | hr'
            · by_cases hfe : fd = h.fd
              · exact Or.inl (by simp [mapInsert, keys, hfe])
              · exact Or.inl (by
                  simp only [mapInsert, keys, List.map_cons, List.mem_cons]
                  exact Or.inr (mem_keys_of_mem_filter fd h.fd s.handlers hfe hl))
            · exact Or.inr hr'
  | remove fd₀ s hr ih =>
      by_cases hmem : fd₀ ∈ s.epollSet
      · have hex₀ : s.exited = false := by
          simpa [removeHandler, hmem] using hex
        rcases ih hex₀ with ⟨ih₁, ih₂⟩
        constructor
        · intro fd hfd
          simp only [removeHandler, if_pos hmem, mapErase] at hfd ⊢
          rcases mem_keys_of_mem_keys_filter fd fd₀ s.handlers hfd with ⟨hk, hne⟩
          exact List.mem_filter.2 ⟨ih₁ fd hk, by simp [hne]⟩
        · intro fd hfd
          simp only [removeHandler, if_pos hmem, mapErase] at hfd ⊢
          rcases List.mem_filter.1 hfd with ⟨hfd', hne⟩
          have hne' : fd ≠ fd₀ := by simpa using hne
          rcases ih₂ fd hfd' with hl | hr'
          · exact Or.inl (mem_keys_of_mem_filter fd fd₀ s.handlers hne' hl)
          · exact Or.inr hr'
      · exfalso
        simp [removeHandler, hmem] at hex

end ReactorState

/-- Claim C4, counterexample: registering a second handler (tag 200) for
fd 5, already registered with tag 100, does not surface any error to the
caller: it overwrites the registry entry with the new handler and, because
the duplicate `EPOLL_CTL_ADD` fails, calls `exit(1)` — the process
terminates. -/
theorem register_duplicate_counterexample :
    (ReactorState.registerHandler ⟨5, 100⟩ (ReactorState.mkReactor 3)).exited = false
    ∧ (ReactorState.registerHandler ⟨5, 200⟩
        (ReactorState.registerHandler ⟨5, 100⟩ (ReactorState.mkReactor 3))).exited = true
    ∧ ReactorState.mapFind 5
        (ReactorState.registerHandler ⟨5, 200⟩
          (ReactorState.registerHandler ⟨5, 100⟩ (ReactorState.mkReactor 3))).handlers
      = some 200 := by
  decide

/-- Claim C4 (amended): for a handler whose handle is already present in the
registry of a reachable, non-exited reactor state, `registerHandler`
overwrites the existing registry entry with the new handler and then
terminates the process (`exit(1)`) when the duplicate epoll `ADD` fails; no
`AlreadyRegistered` error is surfaced to the caller. -/
theorem register_duplicate_overwrites_then_exits (h : HandlerObj) (s : ReactorState)
    (hr : ReactorState.Reached s) (hex : s.exited = false)
    (hdup : h.fd ∈ ReactorState.keys s.handlers) :
    (ReactorState.registerHandler h s).exited = true
    ∧ ReactorState.mapFind h.fd (ReactorState.registerHandler h s).handlers = some h.tag := by
  have hsub := (ReactorState.reached_invariant s hr hex).1 h.fd hdup
  constructor
  · simp [ReactorState.registerHandler, ReactorState.registerEpollEvent, hsub]
  · simp [ReactorState.registerHandler, ReactorState.registerEpollEvent, hsub,
      ReactorState.mapFind, ReactorState.mapInsert]

/-- Witness for C4: concrete duplicate registration of fd 5 in the reactor
constructed with eventfd 3. -/
theorem register_duplicate_overwrites_then_exits_witness :
    ReactorState.Reached (ReactorState.registerHandler ⟨5, 100⟩ (ReactorState.mkReactor 3))
    ∧ (ReactorState.registerHandler ⟨5, 100⟩ (ReactorState.mkReactor 3)).exited = false
    ∧ 5 ∈ ReactorState.keys
        (ReactorState.registerHandler ⟨5, 100⟩ (ReactorState.mkReactor 3)).handlers
    ∧ ((ReactorState.registerHandler ⟨5, 200⟩
          (ReactorState.registerHandler ⟨5, 100⟩ (ReactorState.mkReactor 3))).exited = true
       ∧ ReactorState.mapFind 5
           (ReactorState.registerHandler ⟨5, 200⟩
             (ReactorState.registerHandler ⟨5, 100⟩ (ReactorState.mkReactor 3))).handlers
         = some 200) :=
  ⟨ReactorState.Reached.register ⟨5, 100⟩ _ (ReactorState.Reached.init 3),
   by decide, by decide,
   register_duplicate_overwrites_then_exits ⟨5, 200⟩ _
     (ReactorState.Reached.register ⟨5, 100⟩ _ (ReactorState.Reached.init 3))
     (by decide) (by decide)⟩

/-- Claim C9, counterexample: immediately after construction the wake-up
eventfd (here 3) is subscribed in the epoll interest set but has no entry in
the registry `handlers_`, so registry membership and epoll subscription are
not in one-to-one correspondence. -/
theorem registry_epoll_mismatch_at_init_counterexample :
    ReactorState.Reached (ReactorState.mkReactor 3)
    ∧ 3 ∈ (ReactorState.mkReactor 3).epollSet
    ∧ 3 ∉ ReactorState.keys (ReactorState.mkReactor 3).handlers :=
  ⟨ReactorState.Reached.init 3, by decide, by decide⟩

/-- Claim C9 (amended): in every state reachable through construction,
`registerHandler` and `removeHandler` in which the process has not exited,
every registered handle is epoll-subscribed, and every epoll-subscribed fd is
either registered or is the internal wake-up eventfd — which construction
subscribes without a registry entry. -/
theorem registry_epoll_correspondence_except_eventfd (s : ReactorState)
    (hr : ReactorState.Reached s) (hex : s.exited = false) :
    (∀ fd, fd ∈ ReactorState.keys s.handlers → fd ∈ s.epollSet)
    ∧ (∀ fd, fd ∈ s.epollSet → fd ∈ ReactorState.keys s.handlers ∨ fd = s.eventFd) :=
  ReactorState.reached_invariant s hr hex

/-- Witness for C9 at the state reached by registering fd 5 after
construction with eventfd 3. -/
theorem registry_epoll_correspondence_except_eventfd_witness :
    ReactorState.Reached (ReactorState.registerHandler ⟨5, 100⟩ (ReactorState.mkReactor 3))
    ∧ (ReactorState.registerHandler ⟨5, 100⟩ (ReactorState.mkReactor 3)).exited = false
    ∧ ((∀ fd, fd ∈ ReactorState.keys
          (ReactorState.registerHandler ⟨5, 100⟩ (ReactorState.mkReactor 3)).handlers →
            fd ∈ (ReactorState.registerHandler ⟨5, 100⟩ (ReactorState.mkReactor 3)).epollSet)
       ∧ (∀ fd, fd ∈ (ReactorState.registerHandler ⟨5, 100⟩ (ReactorState.mkReactor 3)).epollSet →
            fd ∈ ReactorState.keys
              (ReactorState.registerHandler ⟨5, 100⟩ (ReactorState.mkReactor 3)).handlers
            ∨ fd = (ReactorState.registerHandler ⟨5, 100⟩ (ReactorState.mkReactor 3)).eventFd)) :=
  ⟨ReactorState.Reached.register ⟨5, 100⟩ _ (ReactorState.Reached.init 3),
   by decide,
   registry_epoll_correspondence_except_eventfd _
     (ReactorState.Reached.register ⟨5, 100⟩ _ (ReactorState.Reached.init 3)) (by decide)⟩

/-- Claim C1: a connected client that writes a newline-terminated byte
sequence receives exactly `"Async " ++ B_accum`, where `B_accum` is the
accumulated buffer handed to `scheduleTask` at newline detection; for the
first newline-terminated request of a fresh `handleRead` invocation delivered
as a single chunk, the response is exactly `"Async "` followed by that
request's bytes, trailing newline included, sent on the connection's fd. -/
theorem echo_response_is_async_accum (fd : Nat) (B : List Char) (hB : '\n' ∈ B) :
    (∀ m : List Char,
        ((ConnectionHandler.scheduleTask fd m).continuation
            ((ConnectionHandler.scheduleTask fd m).taskFn ())).bytes
          = ConnectionHandler.asyncPrefix ++ m)
    ∧ ConnectionHandler.handleRead [RecvResult.data B, RecvResult.again]
        = [ConnAction.scheduleTask B]
    ∧ ((ConnectionHandler.scheduleTask fd B).continuation
          ((ConnectionHandler.scheduleTask fd B).taskFn ())).bytes
        = ConnectionHandler.asyncPrefix ++ B
    ∧ ((ConnectionHandler.scheduleTask fd B).continuation
          ((ConnectionHandler.scheduleTask fd B).taskFn ())).fd = fd := by
  refine ⟨fun m => rfl, ?_, rfl, rfl⟩
  simp [ConnectionHandler.handleRead, ConnectionHandler.handleReadLoop, hB]

/-- Witness for C1 at the request `"hi\n"` on fd 7. -/
theorem echo_response_is_async_accum_witness :
    ('\n' ∈ ['h', 'i', '\n'])
    ∧ ((∀ m : List Char,
          ((ConnectionHandler.scheduleTask 7 m).continuation
              ((ConnectionHandler.scheduleTask 7 m).taskFn ())).bytes
            = ConnectionHandler.asyncPrefix ++ m)
       ∧ ConnectionHandler.handleRead [RecvResult.data ['h', 'i', '\n'], RecvResult.again]
           = [ConnAction.scheduleTask ['h', 'i', '\n']]
       ∧ ((ConnectionHandler.scheduleTask 7 ['h', 'i', '\n']).continuation
             ((ConnectionHandler.scheduleTask 7 ['h', 'i', '\n']).taskFn ())).bytes
           = ConnectionHandler.asyncPrefix ++ ['h', 'i', '\n']
       ∧ ((ConnectionHandler.scheduleTask 7 ['h', 'i', '\n']).continuation
             ((ConnectionHandler.scheduleTask 7 ['h', 'i', '\n']).taskFn ())).fd = 7) :=
  ⟨by decide, echo_response_is_async_accum 7 ['h', 'i', '\n'] (by decide)⟩

/-- Claim C2, counterexample: a connection that sends the two
newline-terminated requests `"a\n"` and `"b\n"` in two separate readiness
events gets the payloads `"a\n"` and `"b\n"` echoed; the second payload does
not contain the first request's bytes as a prefix, because the accumulated
buffer is a local variable of `handleRead` and restarts empty on every
invocation. -/
theorem buffer_reset_across_events_counterexample :
    ConnectionHandler.requestsEcho
        [[RecvResult.data ['a', '\n'], RecvResult.again],
         [RecvResult.data ['b', '\n'], RecvResult.again]]
      = [['a', '\n'], ['b', '\n']]
    ∧ ¬ (['a', '\n'] <+: ['b', '\n']) := by
  decide

/-- Claim C2 (amended): within a single `handleRead` invocation the
accumulated buffer is never cleared after dispatching, so the scheduled
payloads of one invocation form a prefix chain; but the buffer is a local
variable re-initialised to empty on each invocation, so requests arriving in
separate readiness events do not accumulate (e.g. `"a\n"` then `"b\n"` in two
events echo exactly `"a\n"` and `"b\n"`). -/
theorem buffer_growth_within_single_read (rs : List RecvResult) :
    (ConnectionHandler.scheduledMessages (ConnectionHandler.handleRead rs)).Pairwise (· <+: ·)
    ∧ ConnectionHandler.requestsEcho
        [[RecvResult.data ['a', '\n'], RecvResult.again],
         [RecvResult.data ['b', '\n'], RecvResult.again]]
      = [['a', '\n'], ['b', '\n']] :=
  ⟨ConnectionHandler.handleReadLoop_scheduled_pairwise rs [], by decide⟩

/-- Claim C3: when `recv` returns 0 (peer closed), `handleRead` only calls
`close(fd_)` and leaves the loop: it never calls `reactor_->removeHandler`,
so the fd keeps its entry in the registry `handlers_`.  This contradicts the
spec, which requires close and unregister. -/
theorem peer_close_leaves_registry_entry (m : List Char) (rs : List RecvResult)
    (fd : Nat) (s : ReactorState) :
    ConnectionHandler.handleReadLoop m (RecvResult.closed :: rs) = [ConnAction.closeFd]
    ∧ (ReactorState.applyConnActs fd [ConnAction.closeFd] s).handlers = s.handlers
    ∧ fd ∈ (ReactorState.applyConnActs fd [ConnAction.closeFd] s).closedFds
    ∧ ConnAction.removeHandler ∉ ([ConnAction.closeFd] : List ConnAction) := by
  refine ⟨rfl, rfl, ?_, by decide⟩
  simp [ReactorState.applyConnActs]

/-- Claim C10: processing one received chunk schedules at most one task (one
`find` for a newline, one `scheduleTask` call), even when the chunk contains
several newline bytes, and the scheduled snapshot is the buffer accumulated
so far with the entire chunk appended — including bytes after the first
newline, as the concrete chunk `"a\nb\n"` shows. -/
theorem chunk_schedules_at_most_one_task (m c : List Char) (rs : List RecvResult) :
    ConnectionHandler.scheduledMessages
        (ConnectionHandler.handleReadLoop m (RecvResult.data c :: rs))
      = (if '\n' ∈ c then [m ++ c] else [])
          ++ ConnectionHandler.scheduledMessages (ConnectionHandler.handleReadLoop (m ++ c) rs)
    ∧ ConnectionHandler.handleRead [RecvResult.data ['a', '\n', 'b', '\n'], RecvResult.again]
      = [ConnAction.scheduleTask ['a', '\n', 'b', '\n']] := by
  refine ⟨?_, by decide⟩
  by_cases hnl : '\n' ∈ c
  · simp [ConnectionHandler.handleReadLoop, hnl,
      ConnectionHandler.scheduledMessages_cons_schedule]
  · simp [ConnectionHandler.handleReadLoop, hnl]

namespace Reactor

theorem contsRun_map (l : List InboxEntry) : contsRun (l.map DrainAct.runCont) = l := by
  induction l with
  | nil => rfl
  | cons e t ih => simp [contsRun, List.filterMap_cons] at ih ⊢; exact ih

theorem lock_not_mem_map_runCont (l : List InboxEntry) :
    DrainAct.lockInbox ∉ l.map DrainAct.runCont := by
  intro h
  rcases List.mem_map.1 h with ⟨e, _, he⟩
  cases he

end Reactor

/-- Claim C5: the combined worker-side closure built by `submitTask` is
supposed to enqueue onto the completion inbox while holding the inbox mutex.
In the code it does push an entry onto `completed_`, but the closure contains
no acquisition (nor release) of `completedMtx_` at all: the worker-side
enqueue is a data race against the reactor's locked swap. -/
theorem submit_task_pushes_inbox_without_mutex (taskFn : Unit → List Char) (taskId : Nat) :
    WorkAct.pushInbox { taskId := taskId, result := taskFn () }
        ∈ Reactor.submitTaskClosureActs taskFn taskId
    ∧ WorkAct.lockInbox ∉ Reactor.submitTaskClosureActs taskFn taskId
    ∧ WorkAct.unlockInbox ∉ Reactor.submitTaskClosureActs taskFn taskId := by
  refine ⟨?_, ?_, ?_⟩ <;> simp [Reactor.submitTaskClosureActs]

/-- Claim C7: `processCompletedTasks` swaps the inbox with an empty local
FIFO while holding the inbox mutex (the swap position is executed with the
mutex held), leaves `completed_` empty, releases the mutex, and only then
runs every drained continuation in FIFO order; no continuation runs while
the inbox mutex is held. -/
theorem drain_swaps_locked_then_runs_unlocked (completed : List InboxEntry) :
    (Reactor.processCompletedTasks completed).1 = []
    ∧ Reactor.contsRun (Reactor.processCompletedTasks completed).2 = completed
    ∧ ((Reactor.processCompletedTasks completed).2)[1]? = some DrainAct.swapInbox
    ∧ Reactor.mutexHeldAt (Reactor.processCompletedTasks completed).2 1
    ∧ (∀ i e, ((Reactor.processCompletedTasks completed).2)[i]? = some (DrainAct.runCont e) →
        ¬ Reactor.mutexHeldAt (Reactor.processCompletedTasks completed).2 i) := by
  refine ⟨rfl, ?_, rfl, ?_, ?_⟩
  · have h := Reactor.contsRun_map completed
    simp only [Reactor.contsRun] at h
    simp [Reactor.processCompletedTasks, Reactor.contsRun, List.filterMap_append, h]
  · simp [Reactor.mutexHeldAt, Reactor.processCompletedTasks]
  · intro i e hi
    simp only [Reactor.processCompletedTasks] at hi
    match i, hi with
    | 0, hi => exact absurd hi (by simp)
    | 1, hi => exact absurd hi (by simp)
    | 2, hi => exact absurd hi (by simp)
    | (n + 3), hi =>
      intro hheld
      simp only [Reactor.processCompletedTasks, Reactor.mutexHeldAt] at hheld
      have htake : ([DrainAct.lockInbox, DrainAct.swapInbox, DrainAct.unlockInbox]
            ++ completed.map DrainAct.runCont).take (n + 3)
          = DrainAct.lockInbox :: DrainAct.swapInbox :: DrainAct.unlockInbox ::
              (completed.map DrainAct.runCont).take n := rfl
      rw [htake] at hheld
      have hzero : ((completed.map DrainAct.runCont).take n).count DrainAct.lockInbox = 0 :=
        List.count_eq_zero_of_not_mem (fun hmem =>
          Reactor.lock_not_mem_map_runCont completed (List.mem_of_mem_take hmem))
      simp [List.count_cons, hzero] at hheld

namespace Reactor

theorem detachPrecedesFires_nil : detachPrecedesFires [] := by
  intro i k t hi
  simp at hi

theorem firePrecedesReinsert_nil (now : Nat) : firePrecedesReinsert now [] := by
  intro i t hi
  simp at hi

theorem detachPrecedesFires_append {a b : List TimerEv}
    (ha : detachPrecedesFires a) (hb : detachPrecedesFires b) :
    detachPrecedesFires (a ++ b) := by
  intro i k t hi
  by_cases hlt : i < a.length
  · rw [List.getElem?_append_left hlt] at hi
    rcases ha i k t hi with ⟨j, b₁, hj, hjget⟩
    exact ⟨j, b₁, hj, by rw [List.getElem?_append_left (lt_trans hj hlt)]; exact hjget⟩
  · push_neg at hlt
    rw [List.getElem?_append_right hlt] at hi
    rcases hb (i - a.length) k t hi with ⟨j, b₁, hj, hjget⟩
    refine ⟨a.length + j, b₁, by omega, ?_⟩
    rw [List.getElem?_append_right (Nat.le_add_right _ _)]
    simpa [Nat.add_sub_cancel_left] using hjget

theorem firePrecedesReinsert_append {now : Nat} {a b : List TimerEv}
    (ha : firePrecedesReinsert now a) (hb : firePrecedesReinsert now b) :
    firePrecedesReinsert now (a ++ b) := by
  intro i t hi
  by_cases hlt : i < a.length
  · rw [List.getElem?_append_left hlt] at hi
    rcases ha i t hi with ⟨j, k, t₀, hj, hjget, hint, ht⟩
    exact ⟨j, k, t₀, hj, by rw [List.getElem?_append_left (lt_trans hj hlt)]; exact hjget,
      hint, ht⟩
  · push_neg at hlt
    rw [List.getElem?_append_right hlt] at hi
    rcases hb (i - a.length) t hi with ⟨j, k, t₀, hj, hjget, hint, ht⟩
    refine ⟨a.length + j, k, t₀, by omega, ?_, hint, ht⟩
    rw [List.getElem?_append_right (Nat.le_add_right _ _)]
    simpa [Nat.add_sub_cancel_left] using hjget

theorem detachPrecedesFires_bucketEvents (now k : Nat) (bucket : List Timer) :
    detachPrecedesFires (bucketEvents now k bucket) := by
  intro i k₁ t hi
  match i, hi with
  | 0, hi => exact absurd hi (by simp [bucketEvents])
  | (n + 1), hi =>
      refine ⟨0, bucket, Nat.succ_pos n, ?_⟩
      have hk : k₁ = k := by
        have hmem : TimerEv.fire k₁ t ∈ bucket.flatMap (fun t₀ =>
            TimerEv.fire k t₀ ::
              (if 0 < t₀.interval then
                [TimerEv.reinsert { t₀ with expiresAt := now + t₀.interval }] else [])) := by
          have : (bucketEvents now k bucket)[n + 1]? = some (TimerEv.fire k₁ t) := hi
          simp only [bucketEvents, List.getElem?_cons_succ] at this
          exact List.getElem?_mem this
        rcases List.mem_flatMap.1 hmem with ⟨t₀, _, hmem₀⟩
        rcases List.mem_cons.1 hmem₀ with heq | hmem₁
        · cases heq
          rfl
        · by_cases hint : 0 < t₀.interval
          · rw [if_pos hint] at hmem₁
            have h := List.mem_singleton.1 hmem₁
            cases h
          · rw [if_neg hint] at hmem₁
            cases hmem₁
      rw [hk]
      simp [bucketEvents]

theorem firePrecedesReinsert_timerBlock (now k : Nat) (t : Timer) :
    firePrecedesReinsert now (TimerEv.fire k t ::
      (if 0 < t.interval then [TimerEv.reinsert { t with expiresAt := now + t.interval }]
       else [])) := by
  intro i t₁ hi
  by_cases hint : 0 < t.interval
  · rw [if_pos hint] at hi
    match i, hi with
    | 0, hi => exact absurd hi (by simp)
    | 1, hi =>
        have ht₁ : t₁ = { t with expiresAt := now + t.interval } := by
          have : some (TimerEv.reinsert { t with expiresAt := now + t.interval })
              = some (TimerEv.reinsert t₁) := hi
          cases this
          rfl
        exact ⟨0, k, t, Nat.zero_lt_one, by simp, hint, ht₁⟩
    | (n + 2), hi => exact absurd hi (by simp)
  · rw [if_neg hint] at hi
    match i, hi with
    | 0, hi => exact absurd hi (by simp)
    | (n + 1), hi => exact absurd hi (by simp)

theorem firePrecedesReinsert_flatMap (now k : Nat) (bucket : List Timer) :
    firePrecedesReinsert now (bucket.flatMap (fun t =>
      TimerEv.fire k t ::
        (if 0 < t.interval then [TimerEv.reinsert { t with expiresAt := now + t.interval }]
         else []))) := by
  induction bucket with
  | nil => exact firePrecedesReinsert_nil now
  | cons t ts ih =>
      rw [List.flatMap_cons]
      exact firePrecedesReinsert_append (firePrecedesReinsert_timerBlock now k t) ih

theorem firePrecedesReinsert_bucketEvents (now k : Nat) (bucket : List Timer) :
    firePrecedesReinsert now (bucketEvents now k bucket) := by
  have hsingle : firePrecedesReinsert now [TimerEv.detach k bucket] := by
    intro i t hi
    match i, hi with
    | 0, hi => exact absurd hi (by simp)
  have := firePrecedesReinsert_append hsingle (firePrecedesReinsert_flatMap now k bucket)
  simpa [bucketEvents] using this

theorem processTimersGo_nil (now : Nat) : processTimersGo now [] = ([], []) := by
  rw [processTimersGo.eq_def]

theorem processTimersGo_cons_future (now k : Nat) (bucket : List Timer) (rest : TimerMap)
    (h : now < k) :
    processTimersGo now ((k, bucket) :: rest) = ((k, bucket) :: rest, []) := by
  rw [processTimersGo.eq_def]
  simp [h]

theorem processTimersGo_cons_due (now k : Nat) (bucket : List Timer) (rest : TimerMap)
    (h : ¬ now < k) :
    processTimersGo now ((k, bucket) :: rest)
      = ((processTimersGo now
            ((reinsertions now bucket).foldl (fun acc t => timerInsert t.expiresAt t acc) rest)).1,
         bucketEvents now k bucket
           ++ (processTimersGo now
                ((reinsertions now bucket).foldl
                  (fun acc t => timerInsert t.expiresAt t acc) rest)).2) := by
  rw [processTimersGo.eq_def]
  simp [h]

theorem processTimersGo_trace_sound (now : Nat) (m : TimerMap) :
    detachPrecedesFires (processTimersGo now m).2
    ∧ firePrecedesReinsert now (processTimersGo now m).2 := by
  refine processTimersGo.induct now
    (fun m₁ => detachPrecedesFires (processTimersGo now m₁).2
      ∧ firePrecedesReinsert now (processTimersGo now m₁).2) ?_ ?_ ?_ m
  · show detachPrecedesFires (processTimersGo now []).2
        ∧ firePrecedesReinsert now (processTimersGo now []).2
    rw [processTimersGo_nil]
    exact ⟨detachPrecedesFires_nil, firePrecedesReinsert_nil now⟩
  · intro k bucket rest h
    show detachPrecedesFires (processTimersGo now ((k, bucket) :: rest)).2
        ∧ firePrecedesReinsert now (processTimersGo now ((k, bucket) :: rest)).2
    rw [processTimersGo_cons_future now k bucket rest h]
    exact ⟨detachPrecedesFires_nil, firePrecedesReinsert_nil now⟩
  · intro k bucket rest h ih
    show detachPrecedesFires (processTimersGo now ((k, bucket) :: rest)).2
        ∧ firePrecedesReinsert now (processTimersGo now ((k, bucket) :: rest)).2
    rw [processTimersGo_cons_due now k bucket rest h]
    exact ⟨detachPrecedesFires_append (detachPrecedesFires_bucketEvents now k bucket) ih.1,
      firePrecedesReinsert_append (firePrecedesReinsert_bucketEvents now k bucket) ih.2⟩

theorem reinsertPayloads_flatMap (now k : Nat) (bucket : List Timer) :
    reinsertPayloads (bucket.flatMap (fun t =>
      TimerEv.fire k t ::
        (if 0 < t.interval then [TimerEv.reinsert { t with expiresAt := now + t.interval }]
         else []))) = reinsertions now bucket := by
  induction bucket with
  | nil => rfl
  | cons t ts ih =>
      by_cases hint : 0 < t.interval
      · simp only [List.flatMap_cons, reinsertPayloads, List.filterMap_append,
          List.filterMap_cons, if_pos hint]
        simp only [reinsertPayloads] at ih
        rw [ih]
        simp [reinsertions, List.filter_cons, hint]
      · simp only [List.flatMap_cons, reinsertPayloads, List.filterMap_append,
          List.filterMap_cons, if_neg hint]
        simp only [reinsertPayloads] at ih
        rw [ih]
        simp [reinsertions, List.filter_cons, hint]

end Reactor

/-- Claim C8: in `processTimers`, each due bucket (smallest key not in the
future) is detached from the wheel in its entirety before any of its
callbacks run; every re-armed timer comes from a recurring (`interval > 0`)
due timer whose callback fired earlier in the trace, and is re-inserted with
`expiresAt = now + interval` for the single `now` captured at the start;
timers with `interval = 0` are never re-inserted; the `reinsert` events of a
bucket are exactly the re-armed copies inserted back into the wheel; and if
the smallest key is in the future the wheel is left untouched with no
callbacks run. -/
theorem timers_detach_fire_rearm (now : Nat) (m : TimerMap) :
    Reactor.detachPrecedesFires (Reactor.processTimers now m).2
    ∧ Reactor.firePrecedesReinsert now (Reactor.processTimers now m).2
    ∧ (∀ (i : Nat) (t : Timer),
        ((Reactor.processTimers now m).2)[i]? = some (TimerEv.reinsert t) →
          0 < t.interval ∧ t.expiresAt = now + t.interval)
    ∧ (∀ (k : Nat) (bucket : List Timer),
        Reactor.reinsertPayloads (Reactor.bucketEvents now k bucket)
          = Reactor.reinsertions now bucket)
    ∧ ((∀ p ∈ m, now < p.1) → Reactor.processTimers now m = (m, [])) := by
  obtain ⟨h1, h2⟩ := Reactor.processTimersGo_trace_sound now m
  refine ⟨h1, h2, ?_, ?_, ?_⟩
  · intro i t hi
    rcases h2 i t hi with ⟨j, k, t₀, hj, hjget, hint, ht⟩
    subst ht
    exact ⟨hint, rfl⟩
  · intro k bucket
    have h := Reactor.reinsertPayloads_flatMap now k bucket
    simp only [Reactor.reinsertPayloads] at h
    simp only [Reactor.bucketEvents, Reactor.reinsertPayloads, List.filterMap_cons]
    exact h
  · intro hfut
    cases m with
    | nil => simp [Reactor.processTimers, Reactor.processTimersGo_nil]
    | cons p rest =>
        rcases p with ⟨k, bucket⟩
        simpa [Reactor.processTimers] using
          Reactor.processTimersGo_cons_future now k bucket rest
            (hfut (k, bucket) (List.mem_cons_self _ _))

namespace Sys

theorem idCount_nil (id : Nat) : idCount id [] = 0 := rfl

theorem idCount_cons (id : Nat) (t : WTask) (l : List WTask) :
    idCount id (t :: l) = (if t.id = id then 1 else 0) + idCount id l := by
  by_cases h : t.id = id <;> simp [idCount, List.filter_cons, h, Nat.add_comm]

theorem idCount_append (id : Nat) (a b : List WTask) :
    idCount id (a ++ b) = idCount id a + idCount id b := by
  simp [idCount, List.filter_append]

theorem inboxCount_nil (id : Nat) : inboxCount id [] = 0 := rfl

theorem inboxCount_append (id : Nat) (a b : List (Nat × List Char)) :
    inboxCount id (a ++ b) = inboxCount id a + inboxCount id b := by
  simp [inboxCount, List.filter_append]

theorem inboxCount_singleton (id : Nat) (p : Nat × List Char) :
    inboxCount id [p] = if p.1 = id then 1 else 0 := by
  by_cases h : p.1 = id <;> simp [inboxCount, List.filter_cons, h]

theorem contCount_append (id : Nat) (a b : List TaskEv) :
    contCount id (a ++ b) = contCount id a + contCount id b := by
  simp [contCount, List.filter_append]

theorem contCount_computeRet (id : Nat) (thr : Thread) (i : Nat) (r : List Char) :
    contCount id [TaskEv.computeRet thr i r] = 0 := by
  simp [contCount, List.filter_cons]

theorem contCount_map_inbox (id : Nat) (l : List (Nat × List Char)) :
    contCount id (l.map (fun p => TaskEv.contCall Thread.reactor p.1 p.2))
      = inboxCount id l := by
  induction l with
  | nil => rfl
  | cons p rest ih =>
      by_cases h : p.1 = id <;>
        simp [contCount, inboxCount, List.filter_cons, h] at ih ⊢ <;>
        omega

theorem Inv_init (tasks : List WTask) : Inv tasks (init tasks) := by
  refine ⟨fun id => ?_, ?_, ?_, ?_, ?_, ?_, ?_⟩
  · simp [init, idCount_nil, inboxCount_nil, contCount, List.filter_nil]
  · intro t ht
    exact ht
  · intro t ht
    simp [init] at ht
  · intro p hp
    simp [init] at hp
  · intro thr id arg h
    simp [init] at h
  · intro thr id r h
    simp [init] at h
  · intro i id arg h
    simp [init] at h

theorem Inv_step (tasks : List WTask) {s s₁ : Sys} (hstep : Step s s₁)
    (hinv : Inv tasks s) : Inv tasks s₁ := by
  obtain ⟨hbal, hpend, hrun, hinbox, hcont, hcomp, hord⟩ := hinv
  cases hstep with
  | pop t rest hp =>
      refine ⟨?_, ?_, ?_, hinbox, hcont, hcomp, hord⟩
      · intro id
        have hb := hbal id
        rw [hp, idCount_cons] at hb
        show idCount id rest + idCount id (s.running ++ [t]) + inboxCount id s.inbox
            + contCount id s.trace = idCount id tasks
        rw [idCount_append, idCount_cons id t [], idCount_nil]
        omega
      · intro u hu
        exact hpend u (by rw [hp]; exact List.mem_cons_of_mem t hu)
      · intro u hu
        rcases List.mem_append.1 hu with h | h
        · exact hrun u h
        · rw [List.mem_singleton] at h
          subst h
          exact hpend u (by rw [hp]; exact List.mem_cons_self u rest)
  | finish l₁ l₂ t hsplit =>
      have ht : t ∈ tasks :=
        hrun t (by rw [hsplit]; exact List.mem_append_right l₁ (List.mem_cons_self t l₂))
      refine ⟨?_, hpend, ?_, ?_, ?_, ?_, ?_⟩
      · intro id
        have hb := hbal id
        rw [hsplit, idCount_append, idCount_cons] at hb
        show idCount id s.pending + idCount id (l₁ ++ l₂)
            + inboxCount id (s.inbox ++ [(t.id, t.compute ())])
            + contCount id (s.trace
                ++ [TaskEv.computeRet Thread.worker t.id (t.compute ())])
            = idCount id tasks
        rw [idCount_append, inboxCount_append, inboxCount_singleton, contCount_append,
          contCount_computeRet]
        by_cases h : t.id = id
        · simp only [h, if_pos rfl] at hb ⊢
          omega
        · simp only [if_neg h] at hb ⊢
          omega
      · intro u hu
        refine hrun u ?_
        rw [hsplit]
        rcases List.mem_append.1 hu with h | h
        · exact List.mem_append_left _ h
        · exact List.mem_append_right _ (List.mem_cons_of_mem t h)
      · intro p hp
        rcases List.mem_append.1 hp with h | h
        · rcases hinbox p h with ⟨u, hu, h1, h2, h3⟩
          exact ⟨u, hu, h1, h2, List.mem_append_left _ h3⟩
        · rw [List.mem_singleton] at h
          subst h
          exact ⟨t, ht, rfl, rfl,
            List.mem_append_right _ (List.mem_singleton.2 rfl)⟩
      · intro thr id arg h
        rcases List.mem_append.1 h with h | h
        · exact hcont thr id arg h
        · rw [List.mem_singleton] at h
          cases h
      · intro thr id r h
        rcases List.mem_append.1 h with h | h
        · exact hcomp thr id r h
        · rw [List.mem_singleton] at h
          injection h with e1 e2 e3
          subst e1; subst e2; subst e3
          exact ⟨rfl, t, ht, rfl, rfl⟩
      · intro i id arg h
        by_cases hlt : i < s.trace.length
        · rw [List.getElem?_append_left hlt] at h
          rcases hord i id arg h with ⟨j, hj, hjget⟩
          exact ⟨j, hj, by
            rw [List.getElem?_append_left (lt_trans hj hlt)]; exact hjget⟩
        · push_neg at hlt
          rw [List.getElem?_append_right hlt] at h
          cases hd : i - s.trace.length with
          | zero => rw [hd] at h; simp at h
          | succ n => rw [hd] at h; simp at h
  | drain hsig =>
      refine ⟨?_, hpend, hrun, ?_, ?_, ?_, ?_⟩
      · intro id
        have hb := hbal id
        show idCount id s.pending + idCount id s.running
            + inboxCount id ([] : List (Nat × List Char))
            + contCount id (s.trace
                ++ s.inbox.map (fun p => TaskEv.contCall Thread.reactor p.1 p.2))
            = idCount id tasks
        rw [contCount_append, contCount_map_inbox, inboxCount_nil]
        omega
      · intro p hp
        simp at hp
      · intro thr id arg h
        rcases List.mem_append.1 h with h | h
        · exact hcont thr id arg h
        · rcases List.mem_map.1 h with ⟨p, hp, heq⟩
          injection heq with e1 e2 e3
          subst e1; subst e2; subst e3
          rcases hinbox p hp with ⟨u, hu, h1, h2, _⟩
          exact ⟨rfl, u, hu, h1, h2⟩
      · intro thr id r h
        rcases List.mem_append.1 h with h | h
        · exact hcomp thr id r h
        · rcases List.mem_map.1 h with ⟨p, hp, heq⟩
          cases heq
      · intro i id arg h
        by_cases hlt : i < s.trace.length
        · rw [List.getElem?_append_left hlt] at h
          rcases hord i id arg h with ⟨j, hj, hjget⟩
          exact ⟨j, hj, by
            rw [List.getElem?_append_left (lt_trans hj hlt)]; exact hjget⟩
        · push_neg at hlt
          rw [List.getElem?_append_right hlt, List.getElem?_map] at h
          rcases Option.map_eq_some'.1 h with ⟨p, hpget, heq⟩
          injection heq with e1 e2 e3
          have hp : p ∈ s.inbox := List.getElem?_mem hpget
          rcases hinbox p hp with ⟨u, hu, h1, h2, hmem⟩
          rcases List.mem_iff_getElem?.1 hmem with ⟨j, hjget⟩
          have hjlt : j < s.trace.length := (List.getElem?_eq_some.1 hjget).1
          refine ⟨j, lt_of_lt_of_le hjlt hlt, ?_⟩
          rw [List.getElem?_append_left hjlt]
          rw [e2, e3] at hjget
          exact hjget

theorem Inv_reach (tasks : List WTask) {s : Sys} (hr : Reach (init tasks) s) :
    Inv tasks s := by
  induction hr with
  | refl => exact Inv_init tasks
  | tail _ hstep ih => exact Inv_step tasks hstep ih

theorem idCount_pos_of_mem {t : WTask} {l : List WTask} (h : t ∈ l) :
    0 < idCount t.id l := by
  induction l with
  | nil => cases h
  | cons u rest ih =>
      rw [idCount_cons]
      rcases List.mem_cons.1 h with rfl | h
      · simp
      · have := ih h
        omega

theorem idCount_le_one_of_nodup (l : List WTask) (hids : (l.map WTask.id).Nodup)
    (id : Nat) : idCount id l ≤ 1 := by
  induction l with
  | nil => simp [idCount_nil]
  | cons u rest ih =>
      rw [List.map_cons, List.nodup_cons] at hids
      rcases hids with ⟨hnot, hrest⟩
      rw [idCount_cons]
      by_cases h : u.id = id
      · subst h
        have hzero : idCount u.id rest = 0 := by
          by_contra hne
          rw [idCount] at hne
          rcases List.exists_mem_of_length_pos (Nat.pos_of_ne_zero hne) with ⟨v, hv⟩
          rcases List.mem_filter.1 hv with ⟨hvrest, hvid⟩
          exact hnot (List.mem_map.2 ⟨v, hvrest, by simpa using hvid⟩)
        simp [hzero]
      · have := ih hrest
        simp [h]
        omega

theorem idCount_eq_one_of_mem_nodup (tasks : List WTask)
    (hids : (tasks.map WTask.id).Nodup) {t : WTask} (ht : t ∈ tasks) :
    idCount t.id tasks = 1 :=
  Nat.le_antisymm (idCount_le_one_of_nodup tasks hids t.id) (idCount_pos_of_mem ht)

end Sys

/-- Claim C6: for every submitted task (with distinct ids), in every state
reachable by any interleaving of worker and reactor steps from the initial
queue: each continuation invocation happens on the reactor thread and is
strictly preceded in the trace by the compute return of the same task, the
value passed to the continuation is exactly the result returned by that
task's compute closure, the continuation runs at most once, and once queue,
workers and inbox are all empty it has run exactly once. -/
theorem continuation_exactly_once_after_compute (tasks : List WTask)
    (hids : (tasks.map WTask.id).Nodup) (s : Sys)
    (hr : Sys.Reach (Sys.init tasks) s) :
    (∀ (i : Nat) (thr : Thread) (id : Nat) (arg : List Char),
        s.trace[i]? = some (TaskEv.contCall thr id arg) →
          thr = Thread.reactor
          ∧ ∃ j, j < i ∧ s.trace[j]? = some (TaskEv.computeRet Thread.worker id arg))
    ∧ (∀ t ∈ tasks, ∀ (thr : Thread) (arg : List Char),
        TaskEv.contCall thr t.id arg ∈ s.trace → arg = t.compute ())
    ∧ (∀ t ∈ tasks, Sys.contCount t.id s.trace ≤ 1)
    ∧ (s.pending = [] → s.running = [] → s.inbox = [] →
        ∀ t ∈ tasks, Sys.contCount t.id s.trace = 1) := by
  obtain ⟨hbal, hpend, hrun, hinbox, hcont, hcomp, hord⟩ := Sys.Inv_reach tasks hr
  refine ⟨?_, ?_, ?_, ?_⟩
  · intro i thr id arg h
    have hmem : TaskEv.contCall thr id arg ∈ s.trace := List.getElem?_mem h
    have hthr := (hcont thr id arg hmem).1
    subst hthr
    rcases hord i id arg h with ⟨j, hj, hjget⟩
    exact ⟨rfl, j, hj, hjget⟩
  · intro t ht thr arg h
    rcases (hcont thr t.id arg h).2 with ⟨u, hu, hid, harg⟩
    have hut : u = t := List.inj_on_of_nodup_map hids hu ht hid
    rw [harg, hut]
  · intro t ht
    have hb := hbal t.id
    have h1 := Sys.idCount_eq_one_of_mem_nodup tasks hids ht
    omega
  · intro hp hrn hin t ht
    have hb := hbal t.id
    rw [hp, hrn, hin, Sys.idCount_nil, Sys.inboxCount_nil] at hb
    have h1 := Sys.idCount_eq_one_of_mem_nodup tasks hids ht
    omega

/-- Witness for C6: the single task with id 1 computing `"x"`, run through
the concrete interleaving pop, finish, drain; its continuation has then run
exactly once, on the reactor thread, with the computed value. -/
theorem continuation_exactly_once_after_compute_witness :
    ((([⟨1, fun _ => ['x']⟩] : List WTask).map WTask.id).Nodup)
    ∧ Sys.Reach (Sys.init [⟨1, fun _ => ['x']⟩])
        { pending := [], running := [], inbox := [], signal := 0
        , trace := [TaskEv.computeRet Thread.worker 1 ['x'],
                    TaskEv.contCall Thread.reactor 1 ['x']] }
    ∧ Sys.contCount 1 [TaskEv.computeRet Thread.worker 1 ['x'],
        TaskEv.contCall Thread.reactor 1 ['x']] = 1
    ∧ ((∀ (i : Nat) (thr : Thread) (id : Nat) (arg : List Char),
          ([TaskEv.computeRet Thread.worker 1 ['x'],
            TaskEv.contCall Thread.reactor 1 ['x']] : List TaskEv)[i]?
              = some (TaskEv.contCall thr id arg) →
            thr = Thread.reactor
            ∧ ∃ j, j < i ∧ ([TaskEv.computeRet Thread.worker 1 ['x'],
                TaskEv.contCall Thread.reactor 1 ['x']] : List TaskEv)[j]?
                = some (TaskEv.computeRet Thread.worker id arg))
       ∧ (∀ t ∈ ([⟨1, fun _ => ['x']⟩] : List WTask), ∀ (thr : Thread) (arg : List Char),
            TaskEv.contCall thr t.id arg ∈ ([TaskEv.computeRet Thread.worker 1 ['x'],
              TaskEv.contCall Thread.reactor 1 ['x']] : List TaskEv) →
              arg = t.compute ())
       ∧ (∀ t ∈ ([⟨1, fun _ => ['x']⟩] : List WTask),
            Sys.contCount t.id [TaskEv.computeRet Thread.worker 1 ['x'],
              TaskEv.contCall Thread.reactor 1 ['x']] ≤ 1)
       ∧ (([] : List WTask) = [] → ([] : List WTask) = [] →
            ([] : List (Nat × List Char)) = [] →
            ∀ t ∈ ([⟨1, fun _ => ['x']⟩] : List WTask),
              Sys.contCount t.id [TaskEv.computeRet Thread.worker 1 ['x'],
                TaskEv.contCall Thread.reactor 1 ['x']] = 1)) := by
  have hchain : Sys.Reach (Sys.init [⟨1, fun _ => ['x']⟩])
      { pending := [], running := [], inbox := [], signal := 0
      , trace := [TaskEv.computeRet Thread.worker 1 ['x'],
                  TaskEv.contCall Thread.reactor 1 ['x']] } :=
    Relation.ReflTransGen.head (Sys.Step.pop _ ⟨1, fun _ => ['x']⟩ [] rfl)
      (Relation.ReflTransGen.head (Sys.Step.finish _ [] [] ⟨1, fun _ => ['x']⟩ rfl)
        (Relation.ReflTransGen.head (Sys.Step.drain _ (Nat.succ_pos 0))
          Relation.ReflTransGen.refl))
  exact ⟨by decide, hchain, by decide,
    continuation_exactly_once_after_compute [⟨1, fun _ => ['x']⟩] (by decide) _ hchain⟩
